import Mathlib

/-!
Verification development for `src/concurrency/fifo_enforcer.hpp` (rethinkdb).

The header declares the token types, the source state, the sink state
(timestamp, exited-read counter, the two waiting queues) and the exit
sentries.  The method bodies live in `fifo_enforcer.cc` and the timestamp
types in `timestamps.hpp`, neither of which is part of the given sources;
those parts are modelled from the spec (each such definition says so in its
doc comment).  Machine integers (`int`, the timestamp counter) are modelled
as `Nat`: the claims under study involve no overflow behaviour.

Concurrency is modelled by a deterministic step function over explicit
event schedules: an arbitrary interleaving of arrivals, wake-ups, sentry
destructions and cancellations is one `List Event`, and quantifying over
all schedules quantifies over all thread interleavings and arrival orders.
-/

namespace FifoEnforcer

/-- Modelled from the spec (`timestamps.hpp` is not among the given
sources): a transition timestamp is the ordered pair (before-state,
after-state) where after-state is the immediate successor of before-state,
so it is determined by its before-state.  State timestamps are `Nat`. -/
structure transition_timestamp_t where
  before : Nat
deriving DecidableEq, Repr

def transition_timestamp_t.timestamp_before (t : transition_timestamp_t) : Nat :=
  t.before

def transition_timestamp_t.timestamp_after (t : transition_timestamp_t) : Nat :=
  t.before + 1

/-- Type `fifo_enforcer_read_token_t`: carries one state timestamp. -/
structure fifo_enforcer_read_token_t where
  timestamp : Nat
deriving DecidableEq, Repr

/-- Type `fifo_enforcer_write_token_t`: carries a transition timestamp and the
count of reads issued at the transition's before-state. -/
structure fifo_enforcer_write_token_t where
  timestamp : transition_timestamp_t
  num_preceding_reads : Nat
deriving DecidableEq, Repr

/-- Type `fifo_enforcer_source_t::state_t`: a (state timestamp,
reads-since-last-write) pair, shared by source and sink. -/
structure state_t where
  timestamp : Nat
  num_reads : Nat
deriving DecidableEq, Repr

/-- The source's initial state, `state_t(state_timestamp_t::zero(), 0)`. -/
def source_zero : state_t := ⟨0, 0⟩

/-- Modelled from the spec (`fifo_enforcer.cc` is not among the given
sources): `enter_read()` returns a token stamped with the current state
timestamp and increments the reads-since-last-write counter. -/
def enter_read (s : state_t) : fifo_enforcer_read_token_t × state_t :=
  (⟨s.timestamp⟩, ⟨s.timestamp, s.num_reads + 1⟩)

/-- Modelled from the spec (`fifo_enforcer.cc` is not among the given
sources): `enter_write()` returns a token whose transition is
(current timestamp → current timestamp + 1) with preceding-read-count equal
to the reads-since-last-write counter, then advances the timestamp and
resets the counter. -/
def enter_write (s : state_t) : fifo_enforcer_write_token_t × state_t :=
  (⟨⟨s.timestamp⟩, s.num_reads⟩, ⟨s.timestamp + 1, 0⟩)

/-- Method `fifo_enforcer_source_t::get_state()` returns the state snapshot. -/
def get_state (s : state_t) : state_t := s

/-- The mutable state of a `fifo_enforcer_sink_t`: its `state` field, the
`waiting_readers` multimap (entries as (timestamp, waiter id) pairs; the
`cond_t *` identity is the `Nat` id), the `waiting_writers` map (entries as
(transition before-state, preceding-read-count)), plus the set of currently
constructed (admitted, not yet destroyed) sentries, which in C++ lives in
the callers' stacks. -/
structure SinkConfig where
  state : state_t
  waiting_readers : List (Nat × Nat)
  waiting_writers : List (Nat × Nat)
  held_reads : List (Nat × Nat)
  held_writes : List Nat
deriving DecidableEq, Repr

/-- Constructor `fifo_enforcer_sink_t::fifo_enforcer_sink_t(init)`: a sink starts with
the given state and empty queues. -/
def initSink (s : state_t) : SinkConfig := ⟨s, [], [], [], []⟩

/-- The default sink constructor: `state(state_timestamp_t::zero(), 0)`. -/
def sinkZero : SinkConfig := initSink source_zero

/-- Whether the `waiting_writers` map already has an entry under key `b`. -/
def hasWriterKey (q : List (Nat × Nat)) (b : Nat) : Bool :=
  q.any (fun e => e.1 == b)

/-- Semantics of `std::map::insert`: inserts only when the key is not yet present. -/
def insertWriter (q : List (Nat × Nat)) (b npr : Nat) : List (Nat × Nat) :=
  if hasWriterKey q b then q else (b, npr) :: q

/-- Semantics of `std::map::erase(key)`: removes the entry under key `b`. -/
def eraseWriter (q : List (Nat × Nat)) (b : Nat) : List (Nat × Nat) :=
  q.filter (fun e => e.1 != b)

/-- One scheduling event at the sink.  Arrival of a token either admits it
immediately (`admitR`, `admitW`), or enqueues it (`enqR`, `enqW`); a queued
waiter whose guard has become true is woken and admitted (`wakeR`,
`wakeW`); destruction of a constructed sentry is `exitR` / `exitW`;
interruption of a queued waiter is `cancelR` / `cancelW`. -/
inductive Event
  | admitR (t i : Nat)
  | enqR (t i : Nat)
  | wakeR (t i : Nat)
  | admitW (b npr : Nat)
  | enqW (b npr : Nat)
  | wakeW (b npr : Nat)
  | exitR (t i : Nat)
  | exitW (b : Nat)
  | cancelR (t i : Nat)
  | cancelW (b : Nat)
deriving DecidableEq, Repr

/-- Modelled from the spec (`fifo_enforcer.cc` is not among the given
sources): the sink's admission state machine, one lock-held section per
event.  A read is admissible iff its timestamp equals the sink timestamp; a
write is admissible iff its before-state equals the sink timestamp and its
preceding-read-count is at most the exited-read counter.  Read-sentry
destruction increments the exited-read counter; write-sentry destruction
advances the sink timestamp by one and resets the counter (the destructor
asserts that the sink timestamp equals the write's before-state).
Cancellation removes exactly the cancelled waiter's queue entry.  The
result is `none` when the event's guard does not hold (no such lock-held
section can occur then). -/
def stepRun (c : SinkConfig) : Event → Option SinkConfig
  | .admitR t i =>
    if t = c.state.timestamp then
      some ⟨c.state, c.waiting_readers, c.waiting_writers,
            (t, i) :: c.held_reads, c.held_writes⟩
    else none
  | .enqR t i =>
    if t = c.state.timestamp then none
    else
      some ⟨c.state, (t, i) :: c.waiting_readers, c.waiting_writers,
            c.held_reads, c.held_writes⟩
  | .wakeR t i =>
    if (t, i) ∈ c.waiting_readers ∧ t = c.state.timestamp then
      some ⟨c.state, c.waiting_readers.erase (t, i), c.waiting_writers,
            (t, i) :: c.held_reads, c.held_writes⟩
    else none
  | .admitW b npr =>
    if b = c.state.timestamp ∧ npr ≤ c.state.num_reads then
      some ⟨c.state, c.waiting_readers, c.waiting_writers,
            c.held_reads, b :: c.held_writes⟩
    else none
  | .enqW b npr =>
    if b = c.state.timestamp ∧ npr ≤ c.state.num_reads then none
    else
      some ⟨c.state, c.waiting_readers, insertWriter c.waiting_writers b npr,
            c.held_reads, c.held_writes⟩
  | .wakeW b npr =>
    if (b, npr) ∈ c.waiting_writers ∧ b = c.state.timestamp ∧ npr ≤ c.state.num_reads then
      some ⟨c.state, c.waiting_readers, eraseWriter c.waiting_writers b,
            c.held_reads, b :: c.held_writes⟩
    else none
  | .exitR t i =>
    if (t, i) ∈ c.held_reads then
      some ⟨⟨c.state.timestamp, c.state.num_reads + 1⟩, c.waiting_readers,
            c.waiting_writers, c.held_reads.erase (t, i), c.held_writes⟩
    else none
  | .exitW b =>
    if b ∈ c.held_writes ∧ b = c.state.timestamp then
      some ⟨⟨b + 1, 0⟩, c.waiting_readers, c.waiting_writers,
            c.held_reads, c.held_writes.erase b⟩
    else none
  | .cancelR t i =>
    if (t, i) ∈ c.waiting_readers then
      some ⟨c.state, c.waiting_readers.erase (t, i), c.waiting_writers,
            c.held_reads, c.held_writes⟩
    else none
  | .cancelW b =>
    if hasWriterKey c.waiting_writers b then
      some ⟨c.state, c.waiting_readers, eraseWriter c.waiting_writers b,
            c.held_reads, c.held_writes⟩
    else none

/-- Run a schedule of events from a sink configuration; `none` as soon as
some event's guard fails. -/
def run (c : SinkConfig) : List Event → Option SinkConfig
  | [] => some c
  | e :: es =>
    match stepRun c e with
    | some c' => run c' es
    | none => none

theorem run_demo_sequencing :
    run sinkZero [Event.admitR 0 0, Event.exitR 0 0, Event.admitW 0 1,
      Event.exitW 0, Event.admitR 1 0]
    = some ⟨⟨1, 0⟩, [], [], [(1, 0)], []⟩ := by decide

theorem run_demo_out_of_order_write_refused :
    run sinkZero [Event.admitW 1 0] = none := by decide

/-! ### Basic lemmas about single steps -/

theorem stepRun_admitR_inv {c c' : SinkConfig} {t i : Nat}
    (h : stepRun c (Event.admitR t i) = some c') :
    t = c.state.timestamp ∧ c'.state = c.state := by
  simp only [stepRun] at h
  split at h
  · rename_i hc
    simp only [Option.some.injEq] at h
    subst h
    exact ⟨hc, rfl⟩
  · exact Option.noConfusion h

theorem stepRun_wakeR_inv {c c' : SinkConfig} {t i : Nat}
    (h : stepRun c (Event.wakeR t i) = some c') :
    (t, i) ∈ c.waiting_readers ∧ t = c.state.timestamp ∧ c'.state = c.state := by
  simp only [stepRun] at h
  split at h
  · rename_i hc
    simp only [Option.some.injEq] at h
    subst h
    exact ⟨hc.1, hc.2, rfl⟩
  · exact Option.noConfusion h

theorem stepRun_admitW_inv {c c' : SinkConfig} {b npr : Nat}
    (h : stepRun c (Event.admitW b npr) = some c') :
    b = c.state.timestamp ∧ npr ≤ c.state.num_reads ∧ c'.state = c.state := by
  simp only [stepRun] at h
  split at h
  · rename_i hc
    simp only [Option.some.injEq] at h
    subst h
    exact ⟨hc.1, hc.2, rfl⟩
  · exact Option.noConfusion h

theorem stepRun_wakeW_inv {c c' : SinkConfig} {b npr : Nat}
    (h : stepRun c (Event.wakeW b npr) = some c') :
    (b, npr) ∈ c.waiting_writers ∧ b = c.state.timestamp ∧
      npr ≤ c.state.num_reads ∧ c'.state = c.state := by
  simp only [stepRun] at h
  split at h
  · rename_i hc
    simp only [Option.some.injEq] at h
    subst h
    exact ⟨hc.1, hc.2.1, hc.2.2, rfl⟩
  · exact Option.noConfusion h

theorem stepRun_ts_mono {c c' : SinkConfig} {e : Event} (h : stepRun c e = some c') :
    c.state.timestamp ≤ c'.state.timestamp := by
  cases e with
  | admitR t i =>
    exact (stepRun_admitR_inv h).2 ▸ Nat.le_refl _
  | enqR t i =>
    simp only [stepRun] at h
    split at h
    · exact Option.noConfusion h
    · simp only [Option.some.injEq] at h; subst h; exact Nat.le_refl _
  | wakeR t i =>
    exact (stepRun_wakeR_inv h).2.2 ▸ Nat.le_refl _
  | admitW b npr =>
    exact (stepRun_admitW_inv h).2.2 ▸ Nat.le_refl _
  | enqW b npr =>
    simp only [stepRun] at h
    split at h
    · exact Option.noConfusion h
    · simp only [Option.some.injEq] at h; subst h; exact Nat.le_refl _
  | wakeW b npr =>
    exact (stepRun_wakeW_inv h).2.2.2 ▸ Nat.le_refl _
  | exitR t i =>
    simp only [stepRun] at h
    split at h
    · simp only [Option.some.injEq] at h; subst h; exact Nat.le_refl _
    · exact Option.noConfusion h
  | exitW b =>
    simp only [stepRun] at h
    split at h
    · rename_i hc
      simp only [Option.some.injEq] at h
      subst h
      obtain ⟨-, h2⟩ := hc
      subst h2
      exact Nat.le_succ _
    · exact Option.noConfusion h
  | cancelR t i =>
    simp only [stepRun] at h
    split at h
    · simp only [Option.some.injEq] at h; subst h; exact Nat.le_refl _
    · exact Option.noConfusion h
  | cancelW b =>
    simp only [stepRun] at h
    split at h
    · simp only [Option.some.injEq] at h; subst h; exact Nat.le_refl _
    · exact Option.noConfusion h

/-! ### Lemmas about runs of schedules -/

theorem run_append (l1 l2 : List Event) : ∀ c : SinkConfig,
    run c (l1 ++ l2) = (run c l1).bind (fun c' => run c' l2) := by
  induction l1 with
  | nil => intro c; rfl
  | cons e es ih =>
    intro c
    cases h : stepRun c e with
    | none => simp [run, h]
    | some c' => simp [run, h, ih c']

theorem run_ts_mono (es : List Event) : ∀ {c c' : SinkConfig}, run c es = some c' →
    c.state.timestamp ≤ c'.state.timestamp := by
  induction es with
  | nil =>
    intro c c' h
    simp only [run, Option.some.injEq] at h
    subst h
    exact Nat.le_refl _
  | cons e es ih =>
    intro c c' h
    cases hs : stepRun c e with
    | none => simp only [run, hs] at h; exact Option.noConfusion h
    | some cm =>
      simp only [run, hs] at h
      exact Nat.le_trans (stepRun_ts_mono hs) (ih h)

theorem run_decompose {c0 c1 : SinkConfig} {l1 l2 : List Event} {e : Event}
    (h : run c0 (l1 ++ e :: l2) = some c1) :
    ∃ ca cb, run c0 l1 = some ca ∧ stepRun ca e = some cb ∧ run cb l2 = some c1 := by
  rw [run_append] at h
  cases ha : run c0 l1 with
  | none => rw [ha] at h; exact Option.noConfusion h
  | some ca =>
    rw [ha] at h
    replace h : run ca (e :: l2) = some c1 := h
    cases hb : stepRun ca e with
    | none => simp only [run, hb] at h; exact Option.noConfusion h
    | some cb =>
      simp only [run, hb] at h
      exact ⟨ca, cb, rfl, hb, h⟩

theorem stepRun_held_writes_src {c c' : SinkConfig} {e : Event} (h : stepRun c e = some c')
    {b : Nat} (hb : b ∈ c'.held_writes) :
    b ∈ c.held_writes ∨ ∃ n, e = Event.admitW b n ∨ e = Event.wakeW b n := by
  cases e <;> simp only [stepRun] at h <;> split at h <;>
      (try exact Option.noConfusion h) <;>
      (simp only [Option.some.injEq] at h; subst h) <;>
    first
      | exact Or.inl hb
      | exact Or.inl (List.mem_of_mem_erase hb)
      | (rcases List.mem_cons.mp hb with rfl | hb'
         exacts [Or.inr ⟨_, Or.inl rfl⟩, Or.inl hb'])
      | (rcases List.mem_cons.mp hb with rfl | hb'
         exacts [Or.inr ⟨_, Or.inr rfl⟩, Or.inl hb'])

theorem stepRun_ts_step {c c' : SinkConfig} {e : Event} (h : stepRun c e = some c') :
    c'.state.timestamp = c.state.timestamp ∨
      (c'.state.timestamp = c.state.timestamp + 1 ∧
        c.state.timestamp ∈ c.held_writes) := by
  cases e <;> simp only [stepRun] at h <;> split at h <;>
      (try exact Option.noConfusion h) <;>
      (rename_i hc; simp only [Option.some.injEq] at h; subst h) <;>
    first
      | exact Or.inl rfl
      | exact Or.inr ⟨by rw [hc.2], hc.2 ▸ hc.1⟩

/-- Along a successful run, every timestamp value `b` that the sink passed
(from the start timestamp up to, but excluding, the final timestamp)
belongs to a write that was admitted during the run, unless its sentry was
already held at the start. -/
theorem run_ts_covered (es : List Event) : ∀ {c0 c1 : SinkConfig}, run c0 es = some c1 →
    ∀ b, c0.state.timestamp ≤ b → b < c1.state.timestamp →
      (∃ n, Event.admitW b n ∈ es ∨ Event.wakeW b n ∈ es) ∨ b ∈ c0.held_writes := by
  induction es with
  | nil =>
    intro c0 c1 h b h1 h2
    simp only [run, Option.some.injEq] at h
    subst h
    omega
  | cons e es ih =>
    intro c0 c1 h b h1 h2
    cases hs : stepRun c0 e with
    | none => simp only [run, hs] at h; exact Option.noConfusion h
    | some cm =>
      simp only [run, hs] at h
      by_cases hin : cm.state.timestamp ≤ b
      · rcases ih h b hin h2 with ⟨n, hn⟩ | hheld
        · refine Or.inl ⟨n, ?_⟩
          rcases hn with hn | hn
          · exact Or.inl (List.mem_cons_of_mem _ hn)
          · exact Or.inr (List.mem_cons_of_mem _ hn)
        · rcases stepRun_held_writes_src hs hheld with hh | ⟨n, he⟩
          · exact Or.inr hh
          · refine Or.inl ⟨n, ?_⟩
            rcases he with rfl | rfl
            · exact Or.inl (List.mem_cons_self _ _)
            · exact Or.inr (List.mem_cons_self _ _)
      · push_neg at hin
        rcases stepRun_ts_step hs with heq | ⟨heq, hmem⟩
        · omega
        · have hb0 : b = c0.state.timestamp := by omega
          exact Or.inr (by rw [hb0]; exact hmem)

/-- Claim C1: for any schedule of events at one sink, any two write
admissions (immediate or woken) occur in the order of their transition
before-states, i.e. in the single total order of the source's transition
chain, hence in issuance order; a later-issued write is never admitted
first, even when its preceding-read-count is already satisfied. -/
theorem write_total_order (c0 c1 : SinkConfig) (es l1 l2 l3 : List Event)
    (e1 e2 : Event) (b1 n1 b2 n2 : Nat)
    (hrun : run c0 es = some c1)
    (hes : es = l1 ++ e1 :: (l2 ++ e2 :: l3))
    (h1 : e1 = Event.admitW b1 n1 ∨ e1 = Event.wakeW b1 n1)
    (h2 : e2 = Event.admitW b2 n2 ∨ e2 = Event.wakeW b2 n2) :
    b1 ≤ b2 ∧ (b1 ≠ b2 → b1 < b2) := by
  subst hes
  obtain ⟨ca, cb, hl1, he1, hrest⟩ := run_decompose hrun
  obtain ⟨cc, cd, hl2, he2, -⟩ := run_decompose hrest
  have hb1 : b1 = ca.state.timestamp ∧ cb.state = ca.state := by
    cases h1 with
    | inl h =>
      subst h
      exact ⟨(stepRun_admitW_inv he1).1, (stepRun_admitW_inv he1).2.2⟩
    | inr h =>
      subst h
      exact ⟨(stepRun_wakeW_inv he1).2.1, (stepRun_wakeW_inv he1).2.2.2⟩
  have hb2 : b2 = cc.state.timestamp := by
    cases h2 with
    | inl h => subst h; exact (stepRun_admitW_inv he2).1
    | inr h => subst h; exact (stepRun_wakeW_inv he2).2.1
  have hmono : cb.state.timestamp ≤ cc.state.timestamp := run_ts_mono l2 hl2
  have heq : cb.state.timestamp = ca.state.timestamp := by rw [hb1.2]
  obtain ⟨hb1a, -⟩ := hb1
  exact ⟨by omega, by omega⟩

/-- Witness for C1 at a concrete schedule: two writes admitted on the
schedule that admits and retires write 0 and then admits write 1. -/
theorem write_total_order_witness : (0 : Nat) ≤ 1 ∧ ((0 : Nat) ≠ 1 → 0 < 1) :=
  write_total_order sinkZero ⟨⟨2, 0⟩, [], [], [], []⟩
    [Event.admitW 0 0, Event.exitW 0, Event.admitW 1 0, Event.exitW 1]
    [] [Event.exitW 0] [Event.exitW 1]
    (Event.admitW 0 0) (Event.admitW 1 0) 0 0 1 0
    (by decide) rfl (Or.inl rfl) (Or.inl rfl)

/-- Claim C3: a read with timestamp `T` is admitted exactly when the sink
timestamp equals `T`: (1) admission (immediate or woken) happens only in a
state whose sink timestamp is `T`; (2) an arriving read with `T` equal to
the sink timestamp is admitted unconditionally; (3) a queued read whose
timestamp has been reached can be woken, regardless of any other queued
read; (4) on any run from a freshly constructed sink, a read admission at
`T` is preceded by an admission of every write whose before-state lies
between the sink's initial timestamp and `T`; (5) two queued reads with
equal timestamps can be admitted in either relative order. -/
theorem read_timestamp_gating :
    (∀ (c c' : SinkConfig) (t i : Nat),
      stepRun c (Event.admitR t i) = some c' ∨ stepRun c (Event.wakeR t i) = some c' →
      t = c.state.timestamp) ∧
    (∀ (c : SinkConfig) (t i : Nat), t = c.state.timestamp →
      (stepRun c (Event.admitR t i)).isSome = true) ∧
    (∀ (c : SinkConfig) (t i : Nat), (t, i) ∈ c.waiting_readers →
      t = c.state.timestamp → (stepRun c (Event.wakeR t i)).isSome = true) ∧
    (∀ (s0 : state_t) (es l1 l2 : List Event) (c1 : SinkConfig) (e : Event) (T i : Nat),
      run (initSink s0) es = some c1 → es = l1 ++ e :: l2 →
      (e = Event.admitR T i ∨ e = Event.wakeR T i) →
      ∀ b, s0.timestamp ≤ b → b < T →
        ∃ n, Event.admitW b n ∈ l1 ∨ Event.wakeW b n ∈ l1) ∧
    (∀ (c : SinkConfig) (t i j : Nat), (t, i) ∈ c.waiting_readers →
      (t, j) ∈ c.waiting_readers → i ≠ j → t = c.state.timestamp →
      (run c [Event.wakeR t i, Event.wakeR t j]).isSome = true ∧
      (run c [Event.wakeR t j, Event.wakeR t i]).isSome = true) := by
  refine ⟨?_, ?_, ?_, ?_, ?_⟩
  · intro c c' t i h
    rcases h with h | h
    · exact (stepRun_admitR_inv h).1
    · exact (stepRun_wakeR_inv h).2.1
  · intro c t i ht
    simp only [stepRun, if_pos ht, Option.isSome_some]
  · intro c t i hm ht
    simp only [stepRun,
      if_pos (show (t, i) ∈ c.waiting_readers ∧ t = c.state.timestamp from ⟨hm, ht⟩),
      Option.isSome_some]
  · intro s0 es l1 l2 c1 e T i hrun hes he b hb1 hb2
    subst hes
    obtain ⟨ca, cb, hl1, hstep, -⟩ := run_decompose hrun
    have hT : T = ca.state.timestamp := by
      rcases he with rfl | rfl
      · exact (stepRun_admitR_inv hstep).1
      · exact (stepRun_wakeR_inv hstep).2.1
    have hcov := run_ts_covered l1 hl1 b hb1 (by omega)
    rcases hcov with hgr | hheld
    · exact hgr
    · exact absurd hheld (by simp [initSink])
  · intro c t i j hi hj hne hts
    have hpair1 : ((t, j) : Nat × Nat) ≠ (t, i) := by
      simpa using fun h : j = i => hne h.symm
    have hpair2 : ((t, i) : Nat × Nat) ≠ (t, j) := by
      simpa using hne
    have hmi : (t, j) ∈ c.waiting_readers.erase (t, i) :=
      (List.mem_erase_of_ne hpair1).mpr hj
    have hmj : (t, i) ∈ c.waiting_readers.erase (t, j) :=
      (List.mem_erase_of_ne hpair2).mpr hi
    constructor
    · have h1 : stepRun c (Event.wakeR t i)
          = some ⟨c.state, c.waiting_readers.erase (t, i), c.waiting_writers,
              (t, i) :: c.held_reads, c.held_writes⟩ := by
        simp only [stepRun,
          if_pos (show (t, i) ∈ c.waiting_readers ∧ t = c.state.timestamp from ⟨hi, hts⟩)]
      have h2 : stepRun (⟨c.state, c.waiting_readers.erase (t, i), c.waiting_writers,
              (t, i) :: c.held_reads, c.held_writes⟩ : SinkConfig) (Event.wakeR t j)
          = some ⟨c.state, (c.waiting_readers.erase (t, i)).erase (t, j), c.waiting_writers,
              (t, j) :: (t, i) :: c.held_reads, c.held_writes⟩ := by
        simp only [stepRun, if_pos (show _ ∧ t = c.state.timestamp from ⟨hmi, hts⟩)]
      simp only [run, h1, h2, Option.isSome_some]
    · have h1 : stepRun c (Event.wakeR t j)
          = some ⟨c.state, c.waiting_readers.erase (t, j), c.waiting_writers,
              (t, j) :: c.held_reads, c.held_writes⟩ := by
        simp only [stepRun,
          if_pos (show (t, j) ∈ c.waiting_readers ∧ t = c.state.timestamp from ⟨hj, hts⟩)]
      have h2 : stepRun (⟨c.state, c.waiting_readers.erase (t, j), c.waiting_writers,
              (t, j) :: c.held_reads, c.held_writes⟩ : SinkConfig) (Event.wakeR t i)
          = some ⟨c.state, (c.waiting_readers.erase (t, j)).erase (t, i), c.waiting_writers,
              (t, i) :: (t, j) :: c.held_reads, c.held_writes⟩ := by
        simp only [stepRun, if_pos (show _ ∧ t = c.state.timestamp from ⟨hmj, hts⟩)]
      simp only [run, h1, h2, Option.isSome_some]

/-- Witness for C3 at concrete configurations and a concrete run: each
conjunct of the gating theorem applied at small inputs. -/
theorem read_timestamp_gating_witness :
    0 = sinkZero.state.timestamp ∧
    (stepRun sinkZero (Event.admitR 0 0)).isSome = true ∧
    (stepRun ⟨⟨0, 0⟩, [(0, 5)], [], [], []⟩ (Event.wakeR 0 5)).isSome = true ∧
    (∃ n, Event.admitW 0 n ∈ [Event.admitW 0 0, Event.exitW 0] ∨
      Event.wakeW 0 n ∈ [Event.admitW 0 0, Event.exitW 0]) ∧
    (run ⟨⟨0, 0⟩, [(0, 1), (0, 2)], [], [], []⟩
      [Event.wakeR 0 1, Event.wakeR 0 2]).isSome = true ∧
    (run ⟨⟨0, 0⟩, [(0, 1), (0, 2)], [], [], []⟩
      [Event.wakeR 0 2, Event.wakeR 0 1]).isSome = true :=
  ⟨read_timestamp_gating.1 sinkZero ⟨⟨0, 0⟩, [], [], [(0, 0)], []⟩ 0 0 (Or.inl (by decide)),
   read_timestamp_gating.2.1 sinkZero 0 0 rfl,
   read_timestamp_gating.2.2.1 ⟨⟨0, 0⟩, [(0, 5)], [], [], []⟩ 0 5 (by decide) rfl,
   read_timestamp_gating.2.2.2.1 ⟨0, 0⟩ [Event.admitW 0 0, Event.exitW 0, Event.admitR 1 0]
     [Event.admitW 0 0, Event.exitW 0] [] ⟨⟨1, 0⟩, [], [], [(1, 0)], []⟩ (Event.admitR 1 0) 1 0
     (by decide) rfl (Or.inl rfl) 0 (by decide) (by decide),
   (read_timestamp_gating.2.2.2.2 ⟨⟨0, 0⟩, [(0, 1), (0, 2)], [], [], []⟩ 0 1 2
     (by decide) (by decide) (by decide) rfl).1,
   (read_timestamp_gating.2.2.2.2 ⟨⟨0, 0⟩, [(0, 1), (0, 2)], [], [], []⟩ 0 1 2
     (by decide) (by decide) (by decide) rfl).2⟩

/-! ### Counting read exits; conformant schedules

With tokens from a single source, a write token with before-state `b` must
wait for all reads issued at `b`, so every read sentry is destroyed while
the sink timestamp still equals the read token's timestamp.  A schedule
with that property is called conformant; under it the sink's exited-read
counter counts exactly the destroyed read sentries whose token carries the
current sink timestamp. -/

def eventConformant (c : SinkConfig) : Event → Bool
  | .exitR t _ => t == c.state.timestamp
  | _ => true

def conformantFrom (c : SinkConfig) : List Event → Bool
  | [] => true
  | e :: es =>
    match stepRun c e with
    | none => true
    | some c' => eventConformant c e && conformantFrom c' es

def isReadExitAt (T : Nat) : Event → Bool
  | .exitR t _ => t == T
  | _ => false

/-- Number of read-sentry destructions, among the events of a schedule,
whose read token carries timestamp `T`. -/
def countReadExits (T : Nat) (es : List Event) : Nat :=
  es.countP (isReadExitAt T)

theorem conformantFrom_append_left (l1 l2 : List Event) : ∀ c : SinkConfig,
    conformantFrom c (l1 ++ l2) = true → conformantFrom c l1 = true := by
  induction l1 with
  | nil => intro c _; rfl
  | cons e es ih =>
    intro c h
    simp only [List.cons_append, conformantFrom] at h ⊢
    cases hs : stepRun c e with
    | none => rfl
    | some cm =>
      rw [hs] at h
      replace h : (eventConformant c e && conformantFrom cm (es ++ l2)) = true := h
      show (eventConformant c e && conformantFrom cm es) = true
      simp only [Bool.and_eq_true] at h ⊢
      exact ⟨h.1, ih cm h.2⟩

theorem countReadExits_cons_true {T : Nat} {e : Event} (h : isReadExitAt T e = true)
    (es : List Event) : countReadExits T (e :: es) = countReadExits T es + 1 := by
  simp [countReadExits, List.countP_cons, h]

theorem countReadExits_cons_false {T : Nat} {e : Event} (h : isReadExitAt T e = false)
    (es : List Event) : countReadExits T (e :: es) = countReadExits T es := by
  simp [countReadExits, List.countP_cons, h]

/-- Exhaustive description of how one step changes the `state` field. -/
theorem stepRun_state_effect {c c' : SinkConfig} {e : Event} (h : stepRun c e = some c') :
    (c'.state = c.state ∧ ∀ T, isReadExitAt T e = false) ∨
    (∃ t i, e = Event.exitR t i ∧
      c'.state = ⟨c.state.timestamp, c.state.num_reads + 1⟩) ∨
    (e = Event.exitW c.state.timestamp ∧ c'.state = ⟨c.state.timestamp + 1, 0⟩) := by
  cases e <;> simp only [stepRun] at h <;> split at h <;>
      (try exact Option.noConfusion h) <;>
      (rename_i hc; simp only [Option.some.injEq] at h; subst h) <;>
    first
      | exact Or.inl ⟨rfl, fun T => rfl⟩
      | exact Or.inr (Or.inl ⟨_, _, rfl, rfl⟩)
      | exact Or.inr (Or.inr ⟨by rw [hc.2], by rw [hc.2]⟩)

/-- Under a conformant schedule, the sink's exited-read counter equals the
number of destroyed read sentries carrying the current sink timestamp
(plus the initial counter, if the timestamp has not moved), and no read
sentry carrying a not-yet-reached timestamp has been destroyed. -/
theorem run_num_reads_counts (es : List Event) : ∀ {c0 c1 : SinkConfig},
    run c0 es = some c1 → conformantFrom c0 es = true →
    (c1.state.num_reads
      = countReadExits c1.state.timestamp es
        + (if c1.state.timestamp = c0.state.timestamp then c0.state.num_reads else 0)) ∧
    ∀ T, c1.state.timestamp < T → countReadExits T es = 0 := by
  induction es with
  | nil =>
    intro c0 c1 h _
    simp only [run, Option.some.injEq] at h
    subst h
    simp [countReadExits]
  | cons e es ih =>
    intro c0 c1 h hconf
    cases hs : stepRun c0 e with
    | none => simp only [run, hs] at h; exact Option.noConfusion h
    | some cm =>
      simp only [run, hs] at h
      simp only [conformantFrom, hs, Bool.and_eq_true] at hconf
      obtain ⟨hev, hconf'⟩ := hconf
      obtain ⟨ih1, ih2⟩ := ih h hconf'
      have hmono : cm.state.timestamp ≤ c1.state.timestamp := run_ts_mono es h
      rcases stepRun_state_effect hs with ⟨hstate, hfalse⟩ | ⟨t, i, rfl, hstate⟩ | ⟨rfl, hstate⟩
      · constructor
        · rw [countReadExits_cons_false (hfalse _), ← hstate]
          exact ih1
        · intro T hT
          rw [countReadExits_cons_false (hfalse _)]
          exact ih2 T hT
      · have ht : t = c0.state.timestamp := by
          simpa [eventConformant] using hev
        have hts : cm.state.timestamp = c0.state.timestamp := by rw [hstate]
        have hnr : cm.state.num_reads = c0.state.num_reads + 1 := by rw [hstate]
        constructor
        · rw [hts] at ih1
          by_cases hc : c1.state.timestamp = c0.state.timestamp
          · have hcnt : isReadExitAt c1.state.timestamp (Event.exitR t i) = true := by
              simp [isReadExitAt, ht, hc]
            rw [countReadExits_cons_true hcnt, if_pos hc]
            rw [if_pos hc, hnr] at ih1
            omega
          · have hcnt : isReadExitAt c1.state.timestamp (Event.exitR t i) = false := by
              simp only [isReadExitAt, beq_eq_false_iff_ne, Ne, ht]
              exact fun hh => hc hh.symm
            rw [countReadExits_cons_false hcnt, if_neg hc]
            rw [if_neg hc] at ih1
            omega
        · intro T hT
          have hcnt : isReadExitAt T (Event.exitR t i) = false := by
            simp only [isReadExitAt, beq_eq_false_iff_ne, Ne, ht]
            omega
          rw [countReadExits_cons_false hcnt]
          exact ih2 T hT
      · have hts : cm.state.timestamp = c0.state.timestamp + 1 := by rw [hstate]
        have hnr : cm.state.num_reads = 0 := by rw [hstate]
        constructor
        · have hne : ¬ c1.state.timestamp = c0.state.timestamp := by omega
          have hcnt : isReadExitAt c1.state.timestamp
              (Event.exitW c0.state.timestamp) = false := rfl
          rw [countReadExits_cons_false hcnt, if_neg hne]
          rw [hnr, ite_self] at ih1
          omega
        · intro T hT
          have hcnt : isReadExitAt T (Event.exitW c0.state.timestamp) = false := rfl
          rw [countReadExits_cons_false hcnt]
          exact ih2 T hT

/-- Claim C2: a write token is admitted (immediately or woken) only in a
sink state whose timestamp equals the token's transition before-state and
whose exited-read counter is at least the token's preceding-read-count;
under a conformant schedule (single-source usage) from a sink whose
initial exited-read counter is zero, at least `npr` read sentries carrying
that before-state timestamp have therefore been destroyed before the
admission. -/
theorem write_preceding_read_gating (c0 c1 : SinkConfig) (es l1 l2 : List Event)
    (e : Event) (b npr : Nat)
    (hnr : c0.state.num_reads = 0)
    (hrun : run c0 es = some c1)
    (hconf : conformantFrom c0 es = true)
    (hes : es = l1 ++ e :: l2)
    (he : e = Event.admitW b npr ∨ e = Event.wakeW b npr) :
    ∃ cm, run c0 l1 = some cm ∧ cm.state.timestamp = b ∧
      npr ≤ cm.state.num_reads ∧ npr ≤ countReadExits b l1 := by
  subst hes
  obtain ⟨ca, cb, hl1, hstep, -⟩ := run_decompose hrun
  have hg : b = ca.state.timestamp ∧ npr ≤ ca.state.num_reads := by
    rcases he with rfl | rfl
    · exact ⟨(stepRun_admitW_inv hstep).1, (stepRun_admitW_inv hstep).2.1⟩
    · exact ⟨(stepRun_wakeW_inv hstep).2.1, (stepRun_wakeW_inv hstep).2.2.1⟩
  have hconf1 : conformantFrom c0 l1 = true :=
    conformantFrom_append_left l1 _ c0 hconf
  obtain ⟨hcount, -⟩ := run_num_reads_counts l1 hl1 hconf1
  refine ⟨ca, hl1, hg.1.symm, hg.2, ?_⟩
  have hca : ca.state.num_reads = countReadExits ca.state.timestamp l1 := by
    rw [hcount, hnr]
    split <;> rfl
  rw [← hg.1] at hca
  have := hg.2
  omega

/-- Witness for C2: on the schedule that admits and retires read 0 and then
admits write (0 → 1) with preceding-read-count 1, one read exit at
timestamp 0 precedes the write admission. -/
theorem write_preceding_read_gating_witness :
    ∃ cm, run sinkZero [Event.admitR 0 0, Event.exitR 0 0] = some cm ∧
      cm.state.timestamp = 0 ∧ 1 ≤ cm.state.num_reads ∧
      1 ≤ countReadExits 0 [Event.admitR 0 0, Event.exitR 0 0] :=
  write_preceding_read_gating sinkZero ⟨⟨0, 1⟩, [], [], [], [0]⟩
    [Event.admitR 0 0, Event.exitR 0 0, Event.admitW 0 1]
    [Event.admitR 0 0, Event.exitR 0 0] [] (Event.admitW 0 1) 0 1
    rfl (by decide) (by decide) rfl (Or.inl rfl)

/-- Claim C4: `enter_write()` is a total function (no blocking, no error)
returning a write token whose transition is (current timestamp → current
timestamp + 1) and whose preceding-read-count is the reads-since-last-write
counter, after which the source state has the timestamp advanced by one
and the counter reset to zero. -/
theorem enter_write_correct (s : state_t) :
    (enter_write s).1.timestamp.timestamp_before = s.timestamp ∧
    (enter_write s).1.timestamp.timestamp_after = s.timestamp + 1 ∧
    (enter_write s).1.num_preceding_reads = s.num_reads ∧
    (enter_write s).2.timestamp = s.timestamp + 1 ∧
    (enter_write s).2.num_reads = 0 :=
  ⟨rfl, rfl, rfl, rfl, rfl⟩

/-! ### Cancellation -/

theorem hasWriterKey_false_iff {q : List (Nat × Nat)} {b : Nat} :
    hasWriterKey q b = false ↔ ∀ e ∈ q, e.1 ≠ b := by
  simp [hasWriterKey]

theorem eraseWriter_fresh : ∀ {q : List (Nat × Nat)} {b : Nat},
    hasWriterKey q b = false → eraseWriter q b = q := by
  intro q
  induction q with
  | nil => intro b _; rfl
  | cons e q ih =>
    intro b h
    simp only [hasWriterKey, List.any_cons, Bool.or_eq_false_iff] at h
    have h1 : (e.1 != b) = true := by simp [bne, h.1]
    have h2 : eraseWriter q b = q := ih (by simpa [hasWriterKey] using h.2)
    simp only [eraseWriter, List.filter_cons, h1, if_true]
    simp only [eraseWriter] at h2
    rw [h2]

/-- Claim C5: cancelling a pending (queued, not yet admitted) acquisition
removes exactly the queued entry and has no other effect: enqueueing a
read and then cancelling it restores the sink configuration exactly, and
likewise for a write whose transition key was not already queued
(presenting one token twice concurrently is a documented programming
error); moreover a cancellation step exists only for an entry that is
actually queued, and it never changes the sink state, the held sentries,
or the other queue. -/
theorem cancellation_no_side_effects :
    (∀ (c c1 c2 : SinkConfig) (t i : Nat),
      stepRun c (Event.enqR t i) = some c1 →
      stepRun c1 (Event.cancelR t i) = some c2 → c2 = c) ∧
    (∀ (c c1 c2 : SinkConfig) (b npr : Nat),
      hasWriterKey c.waiting_writers b = false →
      stepRun c (Event.enqW b npr) = some c1 →
      stepRun c1 (Event.cancelW b) = some c2 → c2 = c) ∧
    (∀ (c c' : SinkConfig) (t i : Nat), stepRun c (Event.cancelR t i) = some c' →
      (t, i) ∈ c.waiting_readers ∧ c'.state = c.state ∧
      c'.held_reads = c.held_reads ∧ c'.held_writes = c.held_writes ∧
      c'.waiting_writers = c.waiting_writers) ∧
    (∀ (c c' : SinkConfig) (b : Nat), stepRun c (Event.cancelW b) = some c' →
      hasWriterKey c.waiting_writers b = true ∧ c'.state = c.state ∧
      c'.held_reads = c.held_reads ∧ c'.held_writes = c.held_writes ∧
      c'.waiting_readers = c.waiting_readers) := by
  refine ⟨?_, ?_, ?_, ?_⟩
  · intro c c1 c2 t i h1 h2
    simp only [stepRun] at h1
    split at h1
    · exact Option.noConfusion h1
    · simp only [Option.some.injEq] at h1
      subst h1
      simp only [stepRun] at h2
      rw [if_pos (show (t, i) ∈ (t, i) :: c.waiting_readers from List.mem_cons_self _ _)] at h2
      simp only [Option.some.injEq] at h2
      subst h2
      rw [List.erase_cons_head]
  · intro c c1 c2 b npr hfresh h1 h2
    simp only [stepRun] at h1
    split at h1
    · exact Option.noConfusion h1
    · simp only [Option.some.injEq] at h1
      subst h1
      simp only [stepRun] at h2
      have hins : insertWriter c.waiting_writers b npr = (b, npr) :: c.waiting_writers := by
        simp [insertWriter, hfresh]
      rw [hins] at h2
      rw [if_pos (show hasWriterKey ((b, npr) :: c.waiting_writers) b = true by
        simp [hasWriterKey])] at h2
      simp only [Option.some.injEq] at h2
      subst h2
      have : eraseWriter ((b, npr) :: c.waiting_writers) b = c.waiting_writers := by
        simp only [eraseWriter, List.filter_cons, bne_self_eq_false, if_false]
        have := eraseWriter_fresh hfresh
        simpa [eraseWriter] using this
      rw [this]
  · intro c c' t i h
    simp only [stepRun] at h
    split at h
    · rename_i hc
      simp only [Option.some.injEq] at h
      subst h
      exact ⟨hc, rfl, rfl, rfl, rfl⟩
    · exact Option.noConfusion h
  · intro c c' b h
    simp only [stepRun] at h
    split at h
    · rename_i hc
      simp only [Option.some.injEq] at h
      subst h
      exact ⟨hc, rfl, rfl, rfl, rfl⟩
    · exact Option.noConfusion h

/-- Witness for C5 at concrete configurations: enqueue-then-cancel of a
read and of a write restore the exact configuration, and the two
cancellation inversions at concrete queued entries. -/
theorem cancellation_no_side_effects_witness :
    ((⟨⟨0, 3⟩, [(5, 7)], [(2, 1)], [(0, 1)], [0]⟩ : SinkConfig)
      = ⟨⟨0, 3⟩, [(5, 7)], [(2, 1)], [(0, 1)], [0]⟩) ∧
    ((⟨⟨0, 0⟩, [], [(9, 2)], [], []⟩ : SinkConfig) = ⟨⟨0, 0⟩, [], [(9, 2)], [], []⟩) ∧
    ((1, 4) ∈ ([(1, 4)] : List (Nat × Nat)) ∧
      (⟨1, 2⟩ : state_t) = ⟨1, 2⟩ ∧
      ([(1, 9)] : List (Nat × Nat)) = [(1, 9)] ∧ ([5] : List Nat) = [5] ∧
      ([(3, 0)] : List (Nat × Nat)) = [(3, 0)]) ∧
    (hasWriterKey [(3, 0)] 3 = true ∧
      (⟨1, 2⟩ : state_t) = ⟨1, 2⟩ ∧
      ([(1, 9)] : List (Nat × Nat)) = [(1, 9)] ∧ ([5] : List Nat) = [5] ∧
      ([(1, 4)] : List (Nat × Nat)) = [(1, 4)]) :=
  ⟨cancellation_no_side_effects.1 ⟨⟨0, 3⟩, [(5, 7)], [(2, 1)], [(0, 1)], [0]⟩
      ⟨⟨0, 3⟩, [(1, 6), (5, 7)], [(2, 1)], [(0, 1)], [0]⟩
      ⟨⟨0, 3⟩, [(5, 7)], [(2, 1)], [(0, 1)], [0]⟩ 1 6 (by decide) (by decide),
   cancellation_no_side_effects.2.1 ⟨⟨0, 0⟩, [], [(9, 2)], [], []⟩
      ⟨⟨0, 0⟩, [], [(4, 1), (9, 2)], [], []⟩ ⟨⟨0, 0⟩, [], [(9, 2)], [], []⟩ 4 1
      (by decide) (by decide) (by decide),
   cancellation_no_side_effects.2.2.1 ⟨⟨1, 2⟩, [(1, 4)], [(3, 0)], [(1, 9)], [5]⟩
      ⟨⟨1, 2⟩, [], [(3, 0)], [(1, 9)], [5]⟩ 1 4 (by decide),
   cancellation_no_side_effects.2.2.2 ⟨⟨1, 2⟩, [(1, 4)], [(3, 0)], [(1, 9)], [5]⟩
      ⟨⟨1, 2⟩, [(1, 4)], [], [(1, 9)], [5]⟩ 3 (by decide)⟩

/-! ### Snapshot bootstrap: replaying the source's history at a fresh sink -/

/-- One source operation: `enter_read()` or `enter_write()`. -/
inductive SourceOp
  | read
  | write
deriving DecidableEq, Repr

/-- The source state after a sequence of `enter_read`/`enter_write` calls. -/
def sourceRun : state_t → List SourceOp → state_t
  | s, [] => s
  | s, SourceOp.read :: ops => sourceRun (enter_read s).2 ops
  | s, SourceOp.write :: ops => sourceRun (enter_write s).2 ops

/-- The schedule that admits and immediately retires, in issuance order,
every token the source issues along `ops`. -/
def replayEvents : state_t → List SourceOp → List Event
  | _, [] => []
  | s, SourceOp.read :: ops =>
    Event.admitR (enter_read s).1.timestamp 0 ::
      Event.exitR (enter_read s).1.timestamp 0 ::
      replayEvents (enter_read s).2 ops
  | s, SourceOp.write :: ops =>
    Event.admitW (enter_write s).1.timestamp.timestamp_before
        (enter_write s).1.num_preceding_reads ::
      Event.exitW (enter_write s).1.timestamp.timestamp_before ::
      replayEvents (enter_write s).2 ops

/-- Replaying every issued token at a fresh sink started from state `s0`
succeeds and leaves the sink exactly in the source's final state with all
queues empty — the configuration of a sink bootstrapped from the source's
snapshot. -/
theorem replay_run (ops : List SourceOp) : ∀ s0 : state_t,
    run (initSink s0) (replayEvents s0 ops) = some (initSink (sourceRun s0 ops)) := by
  induction ops with
  | nil => intro s0; rfl
  | cons op ops ih =>
    intro s0
    cases op with
    | read =>
      have h1 : stepRun (initSink s0) (Event.admitR s0.timestamp 0)
          = some ⟨s0, [], [], [(s0.timestamp, 0)], []⟩ := by
        simp [stepRun, initSink]
      have h2 : stepRun (⟨s0, [], [], [(s0.timestamp, 0)], []⟩ : SinkConfig)
          (Event.exitR s0.timestamp 0)
          = some ⟨⟨s0.timestamp, s0.num_reads + 1⟩, [], [], [], []⟩ := by
        simp [stepRun, List.erase_cons_head]
      show run (initSink s0)
          (Event.admitR s0.timestamp 0 :: Event.exitR s0.timestamp 0 ::
            replayEvents ⟨s0.timestamp, s0.num_reads + 1⟩ ops) = _
      simp only [run, h1, h2]
      exact ih ⟨s0.timestamp, s0.num_reads + 1⟩
    | write =>
      have h1 : stepRun (initSink s0) (Event.admitW s0.timestamp s0.num_reads)
          = some ⟨s0, [], [], [], [s0.timestamp]⟩ := by
        simp [stepRun, initSink]
      have h2 : stepRun (⟨s0, [], [], [], [s0.timestamp]⟩ : SinkConfig)
          (Event.exitW s0.timestamp)
          = some ⟨⟨s0.timestamp + 1, 0⟩, [], [], [], []⟩ := by
        simp [stepRun, List.erase_cons_head]
      show run (initSink s0)
          (Event.admitW s0.timestamp s0.num_reads :: Event.exitW s0.timestamp ::
            replayEvents ⟨s0.timestamp + 1, 0⟩ ops) = _
      simp only [run, h1, h2]
      exact ih ⟨s0.timestamp + 1, 0⟩

theorem sourceRun_reads (N : Nat) : ∀ t n : Nat,
    sourceRun ⟨t, n⟩ (List.replicate N SourceOp.read) = ⟨t, n + N⟩ := by
  induction N with
  | zero => intro t n; rfl
  | succ N ih =>
    intro t n
    show sourceRun ⟨t, n + 1⟩ (List.replicate N SourceOp.read) = _
    rw [ih t (n + 1)]
    exact congrArg (state_t.mk t) (by omega)

theorem sourceRun_writes_then_reads (M : Nat) : ∀ t N : Nat,
    sourceRun ⟨t, 0⟩ (List.replicate M SourceOp.write ++ List.replicate N SourceOp.read)
      = ⟨t + M, N⟩ := by
  induction M with
  | zero =>
    intro t N
    show sourceRun ⟨t, 0⟩ (List.replicate N SourceOp.read) = _
    rw [sourceRun_reads N t 0]
    congr 1
    omega
  | succ M ih =>
    intro t N
    show sourceRun ⟨t + 1, 0⟩
        (List.replicate M SourceOp.write ++ List.replicate N SourceOp.read) = _
    rw [ih (t + 1) N]
    exact congrArg (fun u => state_t.mk u N) (by omega)

/-- Claim C6: a sink constructed from `get_state()` of a source that has
performed any operation sequence `ops` (in particular `M` writes followed
by `N` reads, for which the snapshot is exactly (M, N)) behaves on every
subsequent schedule exactly like a fresh zero-state sink that had already
admitted and retired every token issued along `ops`. -/
theorem snapshot_bootstrap (N M : Nat) (ops : List SourceOp) (es : List Event) :
    run (initSink (get_state (sourceRun source_zero ops))) es
      = run (initSink source_zero) (replayEvents source_zero ops ++ es) ∧
    get_state (sourceRun source_zero
        (List.replicate M SourceOp.write ++ List.replicate N SourceOp.read))
      = ⟨M, N⟩ := by
  constructor
  · rw [run_append, replay_run ops source_zero]
    rfl
  · show sourceRun ⟨0, 0⟩ _ = _
    rw [sourceRun_writes_then_reads M 0 N]
    exact congrArg (fun u => state_t.mk u N) (Nat.zero_add M)

/-! ### Sink destructor -/

/-- Destructor `fifo_enforcer_sink_t::~fifo_enforcer_sink_t()` (inline in the header):
`rassert(waiting_readers.empty()); rassert(waiting_writers.empty())` — the
destructor's assertions hold exactly when both waiting queues are empty. -/
def sink_destructor_asserts (c : SinkConfig) : Bool :=
  c.waiting_readers.isEmpty && c.waiting_writers.isEmpty

/-- Claim C7: with no token queued, the destructor's assertions always
hold; conversely, if the assertions hold then no token is queued; and
after any enqueue step (a token queued awaiting admission) destroying the
sink trips the assertions — a fatal programming error, not a recoverable
condition. -/
theorem sink_destructor_safety :
    (∀ c : SinkConfig, c.waiting_readers = [] → c.waiting_writers = [] →
      sink_destructor_asserts c = true) ∧
    (∀ c : SinkConfig, sink_destructor_asserts c = true →
      c.waiting_readers = [] ∧ c.waiting_writers = []) ∧
    (∀ (c c' : SinkConfig) (t i : Nat), stepRun c (Event.enqR t i) = some c' →
      sink_destructor_asserts c' = false) ∧
    (∀ (c c' : SinkConfig) (b npr : Nat), stepRun c (Event.enqW b npr) = some c' →
      sink_destructor_asserts c' = false) := by
  refine ⟨?_, ?_, ?_, ?_⟩
  · intro c h1 h2
    simp [sink_destructor_asserts, h1, h2]
  · intro c h
    simpa [sink_destructor_asserts, List.isEmpty_iff] using h
  · intro c c' t i h
    simp only [stepRun] at h
    split at h
    · exact Option.noConfusion h
    · simp only [Option.some.injEq] at h
      subst h
      simp [sink_destructor_asserts]
  · intro c c' b npr h
    simp only [stepRun] at h
    split at h
    · exact Option.noConfusion h
    · simp only [Option.some.injEq] at h
      subst h
      show (c.waiting_readers.isEmpty && (insertWriter c.waiting_writers b npr).isEmpty)
          = false
      cases hk : hasWriterKey c.waiting_writers b with
      | true =>
        simp only [insertWriter, hk, if_true]
        cases hq : c.waiting_writers with
        | nil => rw [hq] at hk; simp [hasWriterKey] at hk
        | cons a q => simp
      | false =>
        simp [insertWriter, hk]

/-- Witness for C7 at concrete configurations: the empty sink passes the
destructor's assertions; a sink passing them has empty queues; after
enqueueing a read or a write the assertions fail. -/
theorem sink_destructor_safety_witness :
    sink_destructor_asserts sinkZero = true ∧
    (sinkZero.waiting_readers = [] ∧ sinkZero.waiting_writers = []) ∧
    sink_destructor_asserts ⟨⟨0, 0⟩, [(1, 0)], [], [], []⟩ = false ∧
    sink_destructor_asserts ⟨⟨0, 0⟩, [], [(1, 0)], [], []⟩ = false :=
  ⟨sink_destructor_safety.1 sinkZero rfl rfl,
   sink_destructor_safety.2.1 sinkZero (by decide),
   sink_destructor_safety.2.2.1 sinkZero ⟨⟨0, 0⟩, [(1, 0)], [], [], []⟩ 1 0 (by decide),
   sink_destructor_safety.2.2.2 sinkZero ⟨⟨0, 0⟩, [], [(1, 0)], [], []⟩ 1 0 (by decide)⟩

/-! ### Uniqueness of waiting-writer keys -/

theorem hasWriterKey_false_not_mem {q : List (Nat × Nat)} {b : Nat}
    (h : hasWriterKey q b = false) : b ∉ q.map Prod.fst := by
  intro hmem
  rcases List.mem_map.mp hmem with ⟨e, he, heq⟩
  exact (hasWriterKey_false_iff.mp h e he) heq

theorem insertWriter_keys_nodup {q : List (Nat × Nat)} {b npr : Nat}
    (h : (q.map Prod.fst).Nodup) : ((insertWriter q b npr).map Prod.fst).Nodup := by
  cases hk : hasWriterKey q b with
  | true => simpa [insertWriter, hk] using h
  | false =>
    simp only [insertWriter]
    rw [if_neg (by simp [hk])]
    simp only [List.map_cons]
    exact List.nodup_cons.mpr ⟨hasWriterKey_false_not_mem hk, h⟩

theorem eraseWriter_keys_nodup {q : List (Nat × Nat)} {b : Nat}
    (h : (q.map Prod.fst).Nodup) : ((eraseWriter q b).map Prod.fst).Nodup := by
  simp only [eraseWriter]
  exact h.sublist (List.Sublist.map Prod.fst (List.filter_sublist q))

/-- Claim C9: the pending-writes container keeps at most one entry per
transition-timestamp key: every single sink step preserves distinctness of
the `waiting_writers` keys, and every configuration reachable from a
freshly constructed sink has pairwise distinct keys. -/
theorem waiting_writers_unique_keys :
    (∀ (c c' : SinkConfig) (e : Event), stepRun c e = some c' →
      (c.waiting_writers.map Prod.fst).Nodup →
      (c'.waiting_writers.map Prod.fst).Nodup) ∧
    (∀ (s0 : state_t) (es : List Event) (c1 : SinkConfig),
      run (initSink s0) es = some c1 →
      (c1.waiting_writers.map Prod.fst).Nodup) := by
  have hstep : ∀ (c c' : SinkConfig) (e : Event), stepRun c e = some c' →
      (c.waiting_writers.map Prod.fst).Nodup →
      (c'.waiting_writers.map Prod.fst).Nodup := by
    intro c c' e h hnd
    cases e <;> simp only [stepRun] at h <;> split at h <;>
        (try exact Option.noConfusion h) <;>
        (simp only [Option.some.injEq] at h; subst h) <;>
      first
        | exact hnd
        | exact insertWriter_keys_nodup hnd
        | exact eraseWriter_keys_nodup hnd
  refine ⟨hstep, ?_⟩
  have key : ∀ (es : List Event) (c0 c1 : SinkConfig), run c0 es = some c1 →
      (c0.waiting_writers.map Prod.fst).Nodup →
      (c1.waiting_writers.map Prod.fst).Nodup := by
    intro es
    induction es with
    | nil =>
      intro c0 c1 h hnd
      simp only [run, Option.some.injEq] at h
      subst h
      exact hnd
    | cons e es ih =>
      intro c0 c1 h hnd
      cases hs : stepRun c0 e with
      | none => simp only [run, hs] at h; exact Option.noConfusion h
      | some cm =>
        simp only [run, hs] at h
        exact ih cm c1 h (hstep c0 cm e hs hnd)
  intro s0 es c1 h
  exact key es (initSink s0) c1 h (by simp [initSink])

/-- Witness for C9: a concrete enqueue step preserves key distinctness,
and a concrete run from a fresh sink ends with distinct keys. -/
theorem waiting_writers_unique_keys_witness :
    (((([(3, 4), (1, 2)]) : List (Nat × Nat)).map Prod.fst).Nodup ∧
    ((([(1, 0)]) : List (Nat × Nat)).map Prod.fst).Nodup) :=
  ⟨waiting_writers_unique_keys.1 ⟨⟨0, 0⟩, [], [(1, 2)], [], []⟩
      ⟨⟨0, 0⟩, [], [(3, 4), (1, 2)], [], []⟩ (Event.enqW 3 4) (by decide) (by decide),
   waiting_writers_unique_keys.2 ⟨0, 0⟩ [Event.enqW 1 0]
      ⟨⟨0, 0⟩, [], [(1, 0)], [], []⟩ (by decide)⟩

/-! ### Exit-sentry construction outcomes and the error taxonomy -/

/-- Outcome of one attempt at constructing an exit sentry: admitted (the
scoped acquisition returns), enqueued with the caller suspended, or the
cancellation exception `interrupted_exc_t` thrown. -/
inductive CtorResult
  | acquired (c : SinkConfig)
  | blocked (c : SinkConfig)
  | threw_interrupted (c : SinkConfig)
deriving DecidableEq, Repr

/-- Modelled from the spec (`fifo_enforcer.cc` is not among the given
sources): the lock-held section of `exit_read_t`'s token-taking
constructor (and of the token-taking `reset`): an admissible token is
admitted; otherwise a pulsed interruptor makes the construction throw
`interrupted_exc_t` with the sink unchanged; otherwise the caller is
enqueued and suspends. -/
def exit_read_enter (c : SinkConfig) (tok : fifo_enforcer_read_token_t)
    (i : Nat) (pulsed : Bool) : CtorResult :=
  if tok.timestamp = c.state.timestamp then
    CtorResult.acquired ⟨c.state, c.waiting_readers, c.waiting_writers,
      (tok.timestamp, i) :: c.held_reads, c.held_writes⟩
  else if pulsed then CtorResult.threw_interrupted c
  else CtorResult.blocked ⟨c.state, (tok.timestamp, i) :: c.waiting_readers,
    c.waiting_writers, c.held_reads, c.held_writes⟩

/-- Modelled from the spec (`fifo_enforcer.cc` is not among the given
sources): the lock-held section of `exit_write_t`'s token-taking
constructor (and of the token-taking `reset`). -/
def exit_write_enter (c : SinkConfig) (tok : fifo_enforcer_write_token_t)
    (pulsed : Bool) : CtorResult :=
  if tok.timestamp.timestamp_before = c.state.timestamp ∧
      tok.num_preceding_reads ≤ c.state.num_reads then
    CtorResult.acquired ⟨c.state, c.waiting_readers, c.waiting_writers,
      c.held_reads, tok.timestamp.timestamp_before :: c.held_writes⟩
  else if pulsed then CtorResult.threw_interrupted c
  else CtorResult.blocked ⟨c.state, c.waiting_readers,
    insertWriter c.waiting_writers tok.timestamp.timestamp_before tok.num_preceding_reads,
    c.held_reads, c.held_writes⟩

/-- Claim C10: the only exception a token-taking sentry constructor (or
token-taking `reset`) can produce is `interrupted_exc_t`, and only when
the interruptor has fired before admission (sink state unchanged); the
destructor, the no-argument `reset()`, and the default constructor never
raise: the release transition of any held sentry always completes. -/
theorem sentry_error_taxonomy :
    (∀ (c c' : SinkConfig) (tok : fifo_enforcer_read_token_t) (i : Nat) (pulsed : Bool),
      exit_read_enter c tok i pulsed = CtorResult.threw_interrupted c' →
      c' = c ∧ pulsed = true ∧ tok.timestamp ≠ c.state.timestamp) ∧
    (∀ (c c' : SinkConfig) (tok : fifo_enforcer_write_token_t) (pulsed : Bool),
      exit_write_enter c tok pulsed = CtorResult.threw_interrupted c' →
      c' = c ∧ pulsed = true ∧
        ¬(tok.timestamp.timestamp_before = c.state.timestamp ∧
          tok.num_preceding_reads ≤ c.state.num_reads)) ∧
    (∀ (c : SinkConfig) (t i : Nat), (t, i) ∈ c.held_reads →
      (stepRun c (Event.exitR t i)).isSome = true) ∧
    (∀ (c : SinkConfig) (b : Nat), b ∈ c.held_writes → b = c.state.timestamp →
      (stepRun c (Event.exitW b)).isSome = true) := by
  refine ⟨?_, ?_, ?_, ?_⟩
  · intro c c' tok i pulsed h
    simp only [exit_read_enter] at h
    split at h
    · exact CtorResult.noConfusion h
    · rename_i hne
      split at h
      · rename_i hp
        injection h with h
        exact ⟨h.symm, hp, hne⟩
      · exact CtorResult.noConfusion h
  · intro c c' tok pulsed h
    simp only [exit_write_enter] at h
    split at h
    · exact CtorResult.noConfusion h
    · rename_i hne
      split at h
      · rename_i hp
        injection h with h
        exact ⟨h.symm, hp, hne⟩
      · exact CtorResult.noConfusion h
  · intro c t i h
    simp only [stepRun, if_pos h, Option.isSome_some]
  · intro c b hb hts
    simp only [stepRun,
      if_pos (show b ∈ c.held_writes ∧ b = c.state.timestamp from ⟨hb, hts⟩),
      Option.isSome_some]

/-- Witness for C10: concrete interrupted constructions leave the sink
unchanged, and concrete held sentries can always be released. -/
theorem sentry_error_taxonomy_witness :
    (sinkZero = sinkZero ∧ true = true ∧ (1 : Nat) ≠ sinkZero.state.timestamp) ∧
    (sinkZero = sinkZero ∧ true = true ∧
      ¬((⟨⟨1⟩, 0⟩ : fifo_enforcer_write_token_t).timestamp.timestamp_before
            = sinkZero.state.timestamp ∧
        (⟨⟨1⟩, 0⟩ : fifo_enforcer_write_token_t).num_preceding_reads
            ≤ sinkZero.state.num_reads)) ∧
    (stepRun ⟨⟨0, 0⟩, [], [], [(0, 3)], []⟩ (Event.exitR 0 3)).isSome = true ∧
    (stepRun ⟨⟨2, 0⟩, [], [], [], [2]⟩ (Event.exitW 2)).isSome = true :=
  ⟨sentry_error_taxonomy.1 sinkZero sinkZero ⟨1⟩ 0 true (by decide),
   sentry_error_taxonomy.2.1 sinkZero sinkZero ⟨⟨1⟩, 0⟩ true (by decide),
   sentry_error_taxonomy.2.2.1 ⟨⟨0, 0⟩, [], [], [(0, 3)], []⟩ 0 3 (by decide),
   sentry_error_taxonomy.2.2.2 ⟨⟨2, 0⟩, [], [], [], [2]⟩ 2 (by decide) rfl⟩

end FifoEnforcer
